import Mathlib

/-!
# Timetable schedule engine: shallow embedding and verification

Shallow embedding of the timetable-builder's schedule engine
(`utils.ts`, `ScheduleContext.tsx`, `ScheduleDndProvider.tsx`,
`ScheduleTable.tsx`, `SearchDialog.tsx`).  Strings are modelled as
`List Char` (the code-unit sequence), JS numbers arising in this code as
`Option Int` (`none` encodes `NaN`; the schedule grammar only produces
integral values, so non-integral numeric literals are conservatively
treated as `NaN`), and a thrown exception as an `Option.none` result of
the enclosing operation.
-/

set_option maxRecDepth 10000

namespace Timetable

/-- A JS number as it occurs in this code: an integer or `NaN` (`none`). -/
abbrev JsNum := Option Int

/-! ## Character classes -/

/-- ASCII decimal digit, the `\d` class of the schedule regex. -/
def isDig (c : Char) : Bool := 48 ≤ c.toNat && c.toNat ≤ 57

/-- The `[가-힣]` class of the schedule regex (Hangul syllables U+AC00–U+D7A3). -/
def isHangul (c : Char) : Bool := 0xAC00 ≤ c.toNat && c.toNat ≤ 0xD7A3

/-- JS line terminators, which `.` in a regex does not match. -/
def isLineTerm (c : Char) : Bool :=
  c.toNat = 10 || c.toNat = 13 || c.toNat = 0x2028 || c.toNat = 0x2029

/-- JS whitespace as trimmed by `Number(string)`. -/
def isJsWS (c : Char) : Bool :=
  c.toNat = 9 || c.toNat = 10 || c.toNat = 11 || c.toNat = 12 || c.toNat = 13 ||
  c.toNat = 32 || c.toNat = 160 || c.toNat = 65279 || c.toNat = 0x1680 ||
  (0x2000 ≤ c.toNat && c.toNat ≤ 0x200A) || c.toNat = 0x2028 || c.toNat = 0x2029 ||
  c.toNat = 0x202F || c.toNat = 0x205F || c.toNat = 0x3000

/-! ## JS string primitives -/

/-- `isPrefixL pre s` decides whether `pre` is a prefix of `s`. -/
def isPrefixL : List Char → List Char → Bool
  | [], _ => true
  | _ :: _, [] => false
  | a :: pre, b :: s => a = b && isPrefixL pre s

/-- JS `haystack.includes(needle)` (substring containment). -/
def containsL (s sub : List Char) : Bool := s.tails.any (isPrefixL sub)

/-- JS `String.prototype.toLowerCase`, restricted to ASCII letters (the only
characters this code lower-cases that are affected). -/
def jsToLower (s : List Char) : List Char :=
  s.map fun c => if 65 ≤ c.toNat && c.toNat ≤ 90 then Char.ofNat (c.toNat + 32) else c

/-- Worker for `jsSplit`, structurally recursive on a fuel bound (any fuel
exceeding the input length computes the splitting; each step either consumes
the separator, at least one character long, or one character). -/
def jsSplitAux (sep : List Char) : Nat → List Char → List (List Char)
  | 0, _ => [[]]
  | fuel + 1, s =>
    if !sep.isEmpty && isPrefixL sep s then
      [] :: jsSplitAux sep fuel (s.drop sep.length)
    else if s.isEmpty then [[]]
    else
      let r := jsSplitAux sep fuel s.tail
      (s.headD default :: r.headD []) :: r.tail

/-- JS `string.split(sep)` for a non-empty string separator: greedy
left-to-right splitting on non-overlapping occurrences; `"".split(sep) = [""]`. -/
def jsSplit (sep : List Char) (s : List Char) : List (List Char) :=
  jsSplitAux sep (s.length + 1) s

/-- Numeric value of a decimal digit character. -/
def digitVal (c : Char) : Nat := c.toNat - 48

/-- Value denoted by a run of decimal digits. -/
def digitsToNat (ds : List Char) : Nat := ds.foldl (fun a c => a * 10 + digitVal c) 0

/-- Trim JS whitespace from both ends (the first step of `Number(string)`). -/
def trimWS (s : List Char) : List Char :=
  ((s.dropWhile isJsWS).reverse.dropWhile isJsWS).reverse

/-- JS `Number(string)` on the strings this code feeds it: the empty/blank
string is `0`, an optionally signed run of decimal digits is its value, and
everything else — including non-integral numeric literals, which the schedule
grammar never produces — is `NaN` (`none`). -/
def jsNumber (s : List Char) : JsNum :=
  match trimWS s with
  | [] => some 0
  | c :: ds =>
    if c = '-' then
      if ds ≠ [] && ds.all isDig then some (-(digitsToNat ds : Int)) else none
    else if c = '+' then
      if ds ≠ [] && ds.all isDig then some (digitsToNat ds : Int) else none
    else if (c :: ds).all isDig then some (digitsToNat (c :: ds) : Int)
    else none

/-! ## parseSchedule (src `utils.ts`)

```ts
const getTimeRange = (value: string): number[] => {
  const [start, end] = value.split("~").map(Number);
  if (end === undefined) return [start];
  return Array(end - start + 1).fill(start).map((v, k) => v + k);
};
```

`Array(n)` throws a `RangeError` when `n` is negative or `NaN`; a thrown
exception is modelled as `none`. -/

/-- `getTimeRange`; `none` is a thrown `RangeError` (invalid array length). -/
def getTimeRange (value : List Char) : Option (List JsNum) :=
  let parts := jsSplit ['~'] value
  let start := jsNumber (parts.headD [])
  match parts.get? 1 with
  | none => some [start]
  | some e =>
    match start, jsNumber e with
    | some s, some en =>
      if en - s + 1 < 0 then none
      else some ((List.range (en - s + 1).toNat).map fun k => some (s + (k : Int)))
    | _, _ => none

/-- Result of matching `/^([가-힣])(\d+(~\d+)?)(.*)/` against a group:
`(day, timeSpec, tailAfterSpec)`.  The day is one Hangul character, the
time-spec is a greedy digit run optionally followed by `~` and a second
greedy digit run, and `tailAfterSpec` is everything after the time-spec
(of which `(.*)` matches the part before the first line terminator). -/
def regMatchCore (g : List Char) : Option (Char × List Char × List Char) :=
  match g with
  | [] => none
  | c :: rest =>
    if isHangul c && rest.takeWhile isDig ≠ [] then
      let ds := rest.takeWhile isDig
      let after := rest.dropWhile isDig
      if after.head? = some '~' && after.tail.takeWhile isDig ≠ [] then
        some (c, ds ++ '~' :: after.tail.takeWhile isDig, after.tail.dropWhile isDig)
      else some (c, ds, after)
    else none

/-- `g.replace(reg, "$2")`: when the regex matches, the match (day char,
time-spec, and the `(.*)` part, which stops at a line terminator) is replaced
by the time-spec; otherwise `g` is returned unchanged. -/
def replaceSpec (g : List Char) : List Char :=
  match regMatchCore g with
  | none => g
  | some (_, spec, tail) => spec ++ tail.dropWhile (fun c => !isLineTerm c)

/-- `g.replace(reg, "$4")`: the match is replaced by its `(.*)` group. -/
def replaceRoom (g : List Char) : List Char :=
  match regMatchCore g with
  | none => g
  | some (_, _, tail) =>
    tail.takeWhile (fun c => !isLineTerm c) ++ tail.dropWhile (fun c => !isLineTerm c)

/-- `.replace(/\(|\)/g, "")`. -/
def stripParens (s : List Char) : List Char := s.filter fun c => !(c = '(' || c = ')')

/-- One parsed `{ day, range, room }` group. -/
structure STriple where
  day : List Char
  range : List JsNum
  room : List Char
deriving DecidableEq, Repr

/-- The separator `"<p>"`. -/
def pSep : List Char := ['<', 'p', '>']

/-- One group of `parseSchedule`'s `map` body.  `const [day] =
schedule.split(/(\d+)/)` takes the part before the first digit run, i.e. the
longest digit-free prefix.  `none` propagates a `RangeError` from
`getTimeRange`. -/
def parseGroup (g : List Char) : Option STriple :=
  let day := g.takeWhile fun c => !isDig c
  match getTimeRange (replaceSpec g) with
  | none => none
  | some range => some ⟨day, range, stripParens (replaceRoom g)⟩

/-- `schedules.map(...)` with exception propagation: the first group whose
`getTimeRange` throws aborts the whole call. -/
def parseGroups : List (List Char) → Option (List STriple)
  | [] => some []
  | g :: gs =>
    match parseGroup g with
    | none => none
    | some t =>
      match parseGroups gs with
      | none => none
      | some ts => some (t :: ts)

/-- `parseSchedule` from `utils.ts`; `none` is a thrown exception. -/
def parseSchedule (schedule : List Char) : Option (List STriple) :=
  parseGroups (jsSplit pSep schedule)

/-! ## Data model

Modelled from the spec: `types.ts` is not among the provided sources; the
`Lecture` and `Schedule` record shapes follow spec §3 (LectureRecord:
id, title, grade, credits, major, raw schedule string; ScheduleEntry:
day, range, room, lecture) and match every field access in the provided
components. -/

/-- A catalog lecture record. -/
structure Lecture where
  id : List Char
  title : List Char
  grade : Int
  credits : List Char
  major : List Char
  schedule : List Char
deriving DecidableEq, Repr

/-- One placed schedule entry on one table. -/
structure Schedule where
  day : List Char
  range : List JsNum
  room : List Char
  lecture : Lecture
deriving DecidableEq, Repr

/-- `Record<string, Schedule[]>` as an insertion-ordered key/value list with
at most one occurrence of each key (JS object semantics for the non-index
string keys this code uses). -/
abbrev SchedulesMap := List (List Char × List Schedule)

/-- `prev[tableId]`: first (unique) binding of the key, if any. -/
def jsGet (m : SchedulesMap) (k : List Char) : Option (List Schedule) :=
  (m.find? fun p => p.1 = k).map fun p => p.2

/-- `{...prev, [k]: v}`: replaces the value in place when `k` is already a
key, otherwise appends the new binding (insertion order of a JS object for
non-index string keys). -/
def jsSet (m : SchedulesMap) (k : List Char) (v : List Schedule) : SchedulesMap :=
  if m.any fun p => p.1 = k then
    m.map fun p => if p.1 = k then (k, v) else p
  else m ++ [(k, v)]

/-! ## Table store (src `ScheduleContext.tsx`) -/

/-- The key `"schedule-" + Date.now()`; the clock reading is passed
explicitly. -/
def dupKey (now : Nat) : List Char := "schedule-".data ++ (Nat.repr now).data

/-- `duplicate(tableId)`:
`{...prev, ["schedule-" + Date.now()]: [...(prev[tableId] ?? [])]}`. -/
def duplicate (now : Nat) (prev : SchedulesMap) (tableId : List Char) : SchedulesMap :=
  jsSet prev (dupKey now) ((jsGet prev tableId).getD [])

/-- `remove(tableId)`: copy the object and `delete copy[tableId]`. -/
def remove (prev : SchedulesMap) (tableId : List Char) : SchedulesMap :=
  prev.filter fun p => !(p.1 = tableId)

/-- `updateTable(tableId, updater)`:
`{...prev, [tableId]: updater(prev[tableId] ?? [])}`. -/
def updateTable (prev : SchedulesMap) (tableId : List Char)
    (updater : List Schedule → List Schedule) : SchedulesMap :=
  jsSet prev tableId (updater ((jsGet prev tableId).getD []))

/-! ## Drag-relocation engine (src `ScheduleDndProvider.tsx`) -/

/-- `time > 0` on a JS number; false for `NaN`. -/
def jnGtZero (t : JsNum) : Bool :=
  match t with
  | some n => decide (0 < n)
  | none => false

/-- `Array.prototype.indexOf`: index of the first occurrence, `-1` if absent. -/
def jsIndexOf (l : List (List Char)) (a : List Char) : Int :=
  match l.findIdx? fun d => d = a with
  | some i => (i : Int)
  | none => -1

/-- `array.map((e, i) => f(i, e))`. -/
def jsMapIdx (f : Nat → Schedule → Schedule) : Nat → List Schedule → List Schedule
  | _, [] => []
  | i, a :: as => f i a :: jsMapIdx f (i + 1) as

/-- `isValidMove(newDayIndex, schedule, moveTimeIndex)`: the day index must
lie in `[0, DAY_LABELS.length)` and every shifted time must be `> 0`
(`numDays` stands for `DAY_LABELS.length`). -/
def isValidMove (numDays : Nat) (newDayIndex : Int) (schedule : Schedule)
    (moveTimeIndex : Int) : Bool :=
  if newDayIndex < 0 || (numDays : Int) ≤ newDayIndex then false
  else (schedule.range.map fun t => t.map (· + moveTimeIndex)).all jnGtZero

/-- The commit decision of `handleDragEnd`'s updater: `none` exactly when the
updater takes a `return prev` branch (missing table or entry, or
`isValidMove` failing); `some` is the freshly built committed mapping.
`dayLabels`, `w`, `h` stand for the shared constants `DAY_LABELS`,
`CellSize.WIDTH`, `CellSize.HEIGHT`; `x`, `y` are the drag deltas and
`Int.fdiv` is `Math.floor` division. -/
def dragCommit? (dayLabels : List (List Char)) (w h : Int) (prev : SchedulesMap)
    (tableId : List Char) (index : Nat) (x y : Int) : Option SchedulesMap :=
  match jsGet prev tableId with
  | none => none
  | some entries =>
    match entries.get? index with
    | none => none
    | some schedule =>
      let nowDayIndex := jsIndexOf dayLabels schedule.day
      let moveDayIndex := Int.fdiv x w
      let moveTimeIndex := Int.fdiv y h
      let newDayIndex := nowDayIndex + moveDayIndex
      if !isValidMove dayLabels.length newDayIndex schedule moveTimeIndex then none
      else
        some (jsSet prev tableId (jsMapIdx
          (fun targetIndex targetSchedule =>
            if targetIndex = index then
              { targetSchedule with
                day := (dayLabels.get? newDayIndex.toNat).getD []
                range := targetSchedule.range.map fun t => t.map (· + moveTimeIndex) }
            else targetSchedule)
          0 entries))

/-- `handleDragEnd`'s functional update: the committed mapping, or `prev`
unchanged on any rejected move. -/
def handleDragEnd (dayLabels : List (List Char)) (w h : Int) (prev : SchedulesMap)
    (tableId : List Char) (index : Nat) (x y : Int) : SchedulesMap :=
  (dragCommit? dayLabels w h prev tableId index x y).getD prev

/-! ## Grid geometry (src `ScheduleTable.tsx`) -/

/-- `TIMES.length`: 18 half-hour slots plus 6 evening slots. -/
def numTimeSlots : Nat := 18 + 6

/-- The computed absolute pixel box of `DraggableSchedule` (the numbers that
the source interpolates into `"...px"` strings).  Fields are JS numbers:
`range[0]` of an empty array is `undefined` and `undefined - 1` is `NaN`. -/
structure PixelBox where
  left : JsNum
  top : JsNum
  width : JsNum
  height : JsNum
deriving DecidableEq, Repr

/-- `DraggableSchedule`'s `position` memo:
`leftIndex = DAY_LABELS.indexOf(day)`, `topIndex = range[0] - 1`,
`size = range.length`, and
`left = 120 + WIDTH * leftIndex + 1`, `top = 40 + (topIndex * HEIGHT + 1)`,
`width = WIDTH - 1`, `height = HEIGHT * size - 1`. -/
def schedulePosition (dayLabels : List (List Char)) (w h : Int) (day : List Char)
    (range : List JsNum) : PixelBox :=
  let leftIndex : Int := jsIndexOf dayLabels day
  let topIndex : JsNum := (range.head?.getD none).map (· - 1)
  let size : Nat := range.length
  { left := some (120 + w * leftIndex + 1)
    top := topIndex.map fun ti => 40 + (ti * h + 1)
    width := some (w - 1)
    height := some (h * (size : Int) - 1) }

/-! ## Search filtering (src `SearchDialog.tsx`) -/

/-- The `SearchOption` state of the search dialog. -/
structure SearchOption where
  query : List Char
  grades : List Int
  days : List (List Char)
  times : List JsNum
  majors : List (List Char)
  credits : Option Int
deriving Repr

/-- Truthiness of `credits` (`undefined` and `0` are falsy). -/
def jsTruthyNum (c : Option Int) : Bool :=
  match c with
  | none => false
  | some n => decide (n ≠ 0)

/-- `lecture.schedule ? parseSchedule(lecture.schedule) : []` — the schedule
list used by the day and time filters; `none` is a propagated exception. -/
def schedulesOf (lec : Lecture) : Option (List STriple) :=
  if lec.schedule ≠ [] then parseSchedule lec.schedule else some []

/-- The trailing time-filter block of the `filteredLectures` predicate. -/
def timeFilterPart (o : SearchOption) (lec : Lecture) : Option Bool :=
  if o.times ≠ [] then
    match schedulesOf lec with
    | none => none
    | some schedules =>
      if !(schedules.any fun s => s.range.any fun time => o.times.contains time) then
        some false
      else some true
  else some true

/-- The predicate of `filteredLectures` for one lecture, with the early
`return false` branches written as a cascade; `dq` is `debouncedQuery` and
`String(credits)` is its decimal rendering. -/
def lectureFilter (dq : List Char) (o : SearchOption) (lec : Lecture) : Option Bool :=
  if dq ≠ [] &&
      !(containsL (jsToLower lec.title) (jsToLower dq) ||
        containsL (jsToLower lec.id) (jsToLower dq)) then some false
  else if o.grades ≠ [] && !o.grades.contains lec.grade then some false
  else if o.majors ≠ [] && !o.majors.contains lec.major then some false
  else if jsTruthyNum o.credits &&
      !isPrefixL (Int.repr (o.credits.getD 0)).data lec.credits then some false
  else if o.days ≠ [] then
    match schedulesOf lec with
    | none => none
    | some schedules =>
      if !(schedules.any fun s => o.days.contains s.day) then some false
      else timeFilterPart o lec
  else timeFilterPart o lec

/-- `lectures.filter(...)` with an exception-propagating predicate. -/
def filterOpt (p : Lecture → Option Bool) : List Lecture → Option (List Lecture)
  | [] => some []
  | a :: as =>
    match p a with
    | none => none
    | some b =>
      match filterOpt p as with
      | none => none
      | some rest => some (if b then a :: rest else rest)

/-- The `filteredLectures` memo of `SearchDialog`. -/
def filteredLectures (dq : List Char) (o : SearchOption) (lectures : List Lecture) :
    Option (List Lecture) :=
  filterOpt (lectureFilter dq o) lectures

/-! ## Well-formed groups for the parser round-trip -/

/-- `sepFree sep g`: scanning `g` followed by `sep` never finds `sep` early —
at no non-empty suffix `t` of `g` is `sep` a prefix of `t ++ sep`.  This is
the exact condition under which left-to-right splitting of
`g ++ sep ++ rest` first hits the separator occurrence after `g`. -/
def sepFree (sep g : List Char) : Bool :=
  g.tails.all fun t => t.isEmpty || !isPrefixL sep (t ++ sep)

/-- A structurally well-formed schedule group: one Hangul day character, a
time-spec `N` or `N~M` given by digit runs, and a room tail. -/
structure RawGroup where
  day : Char
  ds1 : List Char
  ds2 : Option (List Char)
  room : List Char
deriving DecidableEq, Repr

/-- The schedule-string text of a structured group. -/
def RawGroup.render (g : RawGroup) : List Char :=
  [g.day] ++ g.ds1 ++ (match g.ds2 with | none => [] | some ds => '~' :: ds) ++ g.room

/-- Well-formedness: the day character is Hangul; the digit runs are
non-empty digits with `N ≤ M` in the two-bound form; the room neither starts
with a digit (which the greedy `\d+` would swallow) nor — in the single-bound
form — with `~` followed by a digit (which `(~\d+)?` would swallow), contains
no line terminator (which `(.*)` cannot match) and no early `"<p>"` hit. -/
def RawGroup.wf (g : RawGroup) : Bool :=
  isHangul g.day && !g.ds1.isEmpty && g.ds1.all isDig &&
  (match g.ds2 with
   | none =>
     match g.room with
     | '~' :: c :: _ => !isDig c
     | _ => true
   | some ds =>
     !ds.isEmpty && ds.all isDig && decide (digitsToNat g.ds1 ≤ digitsToNat ds)) &&
  (match g.room with
   | [] => true
   | c :: _ => !isDig c) &&
  g.room.all (fun c => !isLineTerm c) &&
  sepFree pSep g.render

/-- The `{day, range, room}` triple the spec promises for a well-formed
group: the day label, the inclusive slot sequence, and the room with
parentheses stripped. -/
def RawGroup.expected (g : RawGroup) : STriple :=
  { day := [g.day]
    range :=
      match g.ds2 with
      | none => [some (digitsToNat g.ds1 : Int)]
      | some ds =>
        (List.range (digitsToNat ds + 1 - digitsToNat g.ds1)).map fun k =>
          some ((digitsToNat g.ds1 : Int) + (k : Int))
    room := stripParens g.room }

/-- A group is safe for `getTimeRange` when the `Array` length it computes is
neither negative nor `NaN`: its extracted time-spec either contains no `~`,
or both `~`-split bounds are numbers `N`, `M` with `M - N + 1 ≥ 0`. -/
def safeGroup (g : List Char) : Bool :=
  let parts := jsSplit ['~'] (replaceSpec g)
  match parts.get? 1 with
  | none => true
  | some e =>
    match jsNumber (parts.headD []), jsNumber e with
    | some s, some en => decide (0 ≤ en - s + 1)
    | _, _ => false

/-- Joining groups with a separator: the schedule string whose
`"<p>"`-separated groups are exactly the given ones. -/
def joinSep (sep : List Char) : List (List Char) → List Char
  | [] => []
  | [g] => g
  | g :: gs => g ++ sep ++ joinSep sep gs

/-! ## Concrete fixtures used by counterexamples and witnesses -/

/-- A two-day label list standing for `DAY_LABELS`. -/
def exLabels : List (List Char) := [['월'], ['화']]

/-- A catalog lecture whose schedule has a Monday group and a slot-3 group on
different days. -/
def exLecture : Lecture :=
  ⟨"L1".data, "T1".data, 1, "3".data, "M1".data, "월1(A)<p>화3(B)".data⟩

/-- A placed entry on Monday, slots 1–2. -/
def exEntry : Schedule := ⟨['월'], [some 1, some 2], "A".data, exLecture⟩

/-- A one-table mapping holding `exEntry`. -/
def exMap : SchedulesMap := [("t".data, [exEntry])]

/-! ## Helper lemmas: the mapping primitives -/

theorem jsGet_eq_none_iff (m : SchedulesMap) (k : List Char) :
    jsGet m k = none ↔ ∀ p ∈ m, p.1 ≠ k := by
  simp only [jsGet, Option.map_eq_none']
  rw [List.find?_eq_none]
  simp

theorem jsGet_isSome_of_some (m : SchedulesMap) (k : List Char) (v : List Schedule)
    (h : jsGet m k = some v) : (m.any fun p => p.1 = k) = true := by
  rcases Option.map_eq_some'.mp h with ⟨p, hp, hv⟩
  have hmem := List.mem_of_find?_eq_some hp
  have hkey := List.find?_some hp
  simp only [decide_eq_true_eq] at hkey
  exact List.any_eq_true.mpr ⟨p, hmem, by simpa using hkey⟩

theorem jsGet_map_replace_self (m : SchedulesMap) (k : List Char) (v : List Schedule)
    (w : List Schedule) (h : jsGet m k = some w) :
    jsGet (m.map fun p => if p.1 = k then (k, v) else p) k = some v := by
  induction m with
  | nil => simp [jsGet] at h
  | cons p m ih =>
    by_cases hp : p.1 = k
    · simp [jsGet, hp]
    · simp only [List.map_cons, if_neg hp]
      have h' : jsGet m k = some w := by
        simpa [jsGet, List.find?_cons, hp] using h
      simpa [jsGet, List.find?_cons, hp] using ih h'

theorem jsGet_map_replace_ne (m : SchedulesMap) (k : List Char) (v : List Schedule)
    (k' : List Char) (h : k' ≠ k) :
    jsGet (m.map fun p => if p.1 = k then (k, v) else p) k' = jsGet m k' := by
  induction m with
  | nil => simp [jsGet]
  | cons p m ih =>
    simp only [List.map_cons]
    by_cases hp : p.1 = k
    · have hne' : ¬((if p.1 = k then (k, v) else p).1 = k') := by
        rw [if_pos hp]
        exact Ne.symm h
      rw [jsGet, List.find?_cons_of_neg _ (by simpa using hne'), jsGet,
        List.find?_cons_of_neg _ (by simp [hp]; exact Ne.symm h)]
      exact ih
    · rw [if_neg hp]
      by_cases hp' : p.1 = k'
      · rw [jsGet, List.find?_cons_of_pos _ (by simpa using hp'), jsGet,
          List.find?_cons_of_pos _ (by simpa using hp')]
      · rw [jsGet, List.find?_cons_of_neg _ (by simpa using hp'), jsGet,
          List.find?_cons_of_neg _ (by simpa using hp')]
        exact ih

theorem jsGet_append_ne (m : SchedulesMap) (k : List Char) (v : List Schedule)
    (k' : List Char) (h : k' ≠ k) :
    jsGet (m ++ [(k, v)]) k' = jsGet m k' := by
  induction m with
  | nil =>
    simp only [List.nil_append]
    rw [jsGet, List.find?_cons_of_neg _ (by simpa using Ne.symm h)]
    simp [jsGet]
  | cons p m ih =>
    simp only [List.cons_append]
    by_cases hp : p.1 = k'
    · rw [jsGet, List.find?_cons_of_pos _ (by simpa using hp), jsGet,
        List.find?_cons_of_pos _ (by simpa using hp)]
    · rw [jsGet, List.find?_cons_of_neg _ (by simpa using hp), jsGet,
        List.find?_cons_of_neg _ (by simpa using hp)]
      exact ih

theorem jsGet_jsSet_self (m : SchedulesMap) (k : List Char) (v w : List Schedule)
    (h : jsGet m k = some w) : jsGet (jsSet m k v) k = some v := by
  have hany := jsGet_isSome_of_some m k w h
  simp only [jsSet, hany, if_pos]
  exact jsGet_map_replace_self m k v w h

theorem jsGet_jsSet_ne (m : SchedulesMap) (k : List Char) (v : List Schedule)
    (k' : List Char) (h : k' ≠ k) : jsGet (jsSet m k v) k' = jsGet m k' := by
  by_cases hany : (m.any fun p => p.1 = k) = true
  · simp only [jsSet, hany, if_pos]
    exact jsGet_map_replace_ne m k v k' h
  · simp only [jsSet, hany]
    simpa using jsGet_append_ne m k v k' h

/-! ## Helper lemmas: indexed map -/

theorem jsMapIdx_get? (f : Nat → Schedule → Schedule) (l : List Schedule) :
    ∀ i j, (jsMapIdx f i l).get? j = (l.get? j).map (f (i + j)) := by
  induction l with
  | nil => intro i j; simp [jsMapIdx]
  | cons a l ih =>
    intro i j
    cases j with
    | zero => simp [jsMapIdx]
    | succ j =>
      simp only [jsMapIdx, List.get?_cons_succ]
      rw [ih (i + 1) j]
      have e : i + 1 + j = i + (j + 1) := by omega
      rw [e]

theorem jsMapIdx_length (f : Nat → Schedule → Schedule) (l : List Schedule) :
    ∀ i, (jsMapIdx f i l).length = l.length := by
  induction l with
  | nil => intro i; simp [jsMapIdx]
  | cons a l ih => intro i; simp [jsMapIdx, ih]

/-! ## Claims C2 and C4, C10 -/

/-- Claim C2, counterexample: `parseSchedule("")` is not the empty sequence —
JS `"".split("<p>")` is `[""]`, so one group is parsed. -/
theorem parseSchedule_empty_not_nil : ¬ parseSchedule "".data = some [] := by decide

/-- Claim C2, amended: parsing the empty string returns (without throwing) a
single best-effort triple `{day: "", range: [0], room: ""}` — the lone empty
group's day and room are empty and `Number("")` is `0`. -/
theorem parseSchedule_empty_single :
    parseSchedule "".data = some [⟨[], [some 0], []⟩] := by decide

/-- Claim C4, counterexample: on a `tableId` absent from the mapping,
`remove` leaves the mapping unchanged but `duplicate` does not — it adds a
fresh `"schedule-" + Date.now()` table whose entry list is the empty copy of
the missing source. -/
theorem duplicate_absent_counterexample :
    jsGet exMap "x".data = none ∧
    ¬ duplicate 0 exMap "x".data = exMap := by decide

/-- Claim C4, amended: if `tableId` is absent and the fresh `"schedule-" +
Date.now()` key is not already a table, `remove(tableId)` returns the mapping
unchanged while `duplicate(tableId)` appends exactly one new table under the
fresh key with an empty entry sequence, leaving every existing binding
unchanged. -/
theorem absent_remove_noop_duplicate_adds (m : SchedulesMap) (tid : List Char)
    (now : Nat) (h1 : jsGet m tid = none) (h2 : jsGet m (dupKey now) = none) :
    remove m tid = m ∧ duplicate now m tid = m ++ [(dupKey now, [])] := by
  constructor
  · have hall := (jsGet_eq_none_iff m tid).mp h1
    simp only [remove]
    rw [List.filter_eq_self]
    intro p hp
    simpa using hall p hp
  · have hall := (jsGet_eq_none_iff m (dupKey now)).mp h2
    have hany : (m.any fun p => p.1 = dupKey now) = false := by
      rw [List.any_eq_false]
      intro p hp
      simpa using hall p hp
    simp [duplicate, jsSet, h1, hany]

/-- Claim C4 witness: a concrete absent-id call. -/
theorem absent_remove_noop_duplicate_adds_witness :
    remove exMap "x".data = exMap ∧
    duplicate 7 exMap "x".data = exMap ++ [(dupKey 7, [])] :=
  absent_remove_noop_duplicate_adds exMap "x".data 7 (by decide) (by decide)

/-- Claim C10: `updateTable` on an absent `tableId` does not leave the key
set unchanged — it appends `tableId` as a new key bound to
`updater([])` (the updater applied to the `?? []` default). -/
theorem updateTable_absent_inserts (m : SchedulesMap) (tid : List Char)
    (f : List Schedule → List Schedule) (h : jsGet m tid = none) :
    updateTable m tid f = m ++ [(tid, f [])] ∧
    (updateTable m tid f).map Prod.fst = m.map Prod.fst ++ [tid] := by
  have hall := (jsGet_eq_none_iff m tid).mp h
  have hany : (m.any fun p => p.1 = tid) = false := by
    rw [List.any_eq_false]
    intro p hp
    simpa using hall p hp
  have heq : updateTable m tid f = m ++ [(tid, f [])] := by
    simp [updateTable, jsSet, h, hany]
  exact ⟨heq, by simp [heq]⟩

/-- Claim C10 witness: inserting into a concrete one-table mapping. -/
theorem updateTable_absent_inserts_witness :
    updateTable exMap "u".data id = exMap ++ [("u".data, [])] ∧
    (updateTable exMap "u".data id).map Prod.fst = exMap.map Prod.fst ++ ["u".data] :=
  updateTable_absent_inserts exMap "u".data id (by decide)

/-! ## Claim C8: pixel geometry -/

/-- Claim C8, counterexample: the rendered box is not
`(120 + w·day, 40 + h·(range₀−1), w, h·len)` — at day index 0, slot 1, cell
80×30 the code yields `left = 121`, not `120` (and similarly for the other
three fields). -/
theorem schedulePosition_counterexample :
    schedulePosition exLabels 80 30 ['월'] [some 1] ≠
      ⟨some (120 + 80 * 0), some (40 + 30 * (1 - 1)), some 80, some (30 * 1)⟩ := by
  decide

/-- Claim C8, amended: for an entry whose day sits at index `d` of the day
labels and whose range starts at slot `r0`, the computed box is
`left = 120 + w·d + 1`, `top = 40 + ((r0 − 1)·h + 1)`, `width = w − 1`,
`height = h·len − 1` — the source adds the one-pixel border inset the claim
omits. -/
theorem schedulePosition_formula (labels : List (List Char)) (w h : Int)
    (day : List Char) (range : List JsNum) (d : Nat) (r0 : Int)
    (hd : jsIndexOf labels day = (d : Int)) (hr : range.head? = some (some r0)) :
    schedulePosition labels w h day range =
      ⟨some (120 + w * (d : Int) + 1), some (40 + ((r0 - 1) * h + 1)),
       some (w - 1), some (h * (range.length : Int) - 1)⟩ := by
  simp [schedulePosition, hd, hr]

/-- Claim C8 witness: the concrete box at day index 0, slot 1. -/
theorem schedulePosition_formula_witness :
    schedulePosition exLabels 80 30 ['월'] [some 1] =
      ⟨some 121, some 41, some 79, some 29⟩ :=
  schedulePosition_formula exLabels 80 30 ['월'] [some 1] 0 1 (by decide) rfl

/-! ## Claims C5, C6, C9: the drag-relocation engine -/

theorem isValidMove_iff (numDays : Nat) (nd : Int) (sch : Schedule) (td : Int)
    (rs : List Int) (hr : sch.range = rs.map some) :
    isValidMove numDays nd sch td = true ↔
      (0 ≤ nd ∧ nd < (numDays : Int) ∧ ∀ r ∈ rs, 0 < r + td) := by
  rw [isValidMove]
  by_cases hb : nd < 0 || (numDays : Int) ≤ nd
  · rw [if_pos hb]
    simp only [Bool.or_eq_true, decide_eq_true_eq] at hb
    constructor
    · intro hfalse; cases hfalse
    · rintro ⟨h1, h2, -⟩
      rcases hb with hb | hb <;> omega
  · rw [if_neg hb]
    simp only [Bool.or_eq_true, decide_eq_true_eq, not_or, not_lt, not_le] at hb
    rw [hr, List.map_map]
    constructor
    · intro hall
      refine ⟨hb.1, hb.2, fun r hrm => ?_⟩
      have hmem := List.mem_map_of_mem ((fun t => Option.map (· + td) t) ∘ some) hrm
      have := List.all_eq_true.mp hall _ hmem
      simpa [jnGtZero] using this
    · rintro ⟨-, -, hall⟩
      rw [List.all_eq_true]
      intro t htm
      rcases List.mem_map.mp htm with ⟨r, hrm, hrt⟩
      have := hall r hrm
      simp only [Function.comp] at hrt
      rw [← hrt]
      simpa [jnGtZero] using this

/-- Claim C5: a drag of an existing entry is rejected — the commit branch is
not taken and the mapping is returned unchanged — exactly when
`newDayIndex = currentDayIndex + ⌊x/w⌋` falls outside `[0, numDays)` or some
shifted slot `r + ⌊y/h⌋` is ≤ 0. -/
theorem drag_reject_iff (labels : List (List Char)) (w h : Int) (prev : SchedulesMap)
    (tid : List Char) (idx : Nat) (x y : Int) (entries : List Schedule)
    (sch : Schedule) (rs : List Int)
    (he : jsGet prev tid = some entries) (hs : entries.get? idx = some sch)
    (hr : sch.range = rs.map some) :
    (dragCommit? labels w h prev tid idx x y = none ↔
      (jsIndexOf labels sch.day + Int.fdiv x w < 0 ∨
       (labels.length : Int) ≤ jsIndexOf labels sch.day + Int.fdiv x w ∨
       ∃ r ∈ rs, r + Int.fdiv y h ≤ 0)) ∧
    (dragCommit? labels w h prev tid idx x y = none →
      handleDragEnd labels w h prev tid idx x y = prev) := by
  have hvalid := isValidMove_iff labels.length
    (jsIndexOf labels sch.day + Int.fdiv x w) sch (Int.fdiv y h) rs hr
  constructor
  · rw [dragCommit?]
    simp only [he, hs]
    by_cases hv : isValidMove labels.length
        (jsIndexOf labels sch.day + Int.fdiv x w) sch (Int.fdiv y h) = true
    · rw [hv]
      simp only [Bool.not_true, Bool.false_eq_true, if_false, reduceCtorEq, false_iff]
      rcases hvalid.mp hv with ⟨h1, h2, h3⟩
      push_neg
      exact ⟨by omega, by omega, fun r hrm => by have := h3 r hrm; omega⟩
    · rw [Bool.not_eq_true] at hv
      rw [hv]
      simp only [Bool.not_false, if_true, true_iff]
      have := (not_iff_not.mpr hvalid).mp (by simp [hv])
      push_neg at this
      by_cases h1 : 0 ≤ jsIndexOf labels sch.day + Int.fdiv x w
      · by_cases h2 : jsIndexOf labels sch.day + Int.fdiv x w < (labels.length : Int)
        · rcases this h1 h2 with ⟨r, hrm, hle⟩
          exact Or.inr (Or.inr ⟨r, hrm, by omega⟩)
        · exact Or.inr (Or.inl (by omega))
      · exact Or.inl (by omega)
  · intro hnone
    rw [handleDragEnd, hnone]
    rfl

/-- Claim C5 witness: the entry at day index 0 dragged one day left
(`x = -80` with cell width 80) is rejected and the mapping is unchanged. -/
theorem drag_reject_iff_witness :
    dragCommit? exLabels 80 30 exMap "t".data 0 (-80) 0 = none ∧
    handleDragEnd exLabels 80 30 exMap "t".data 0 (-80) 0 = exMap := by
  have h := drag_reject_iff exLabels 80 30 exMap "t".data 0 (-80) 0 [exEntry]
    exEntry [1, 2] (by decide) (by decide) (by decide)
  have hnone := h.1.mpr (Or.inl (by decide))
  exact ⟨hnone, h.2 hnone⟩

/-- Soundness of the commit branch, shared by the frame and no-upper-bound
results. -/
theorem dragCommit_sound (labels : List (List Char)) (w h : Int)
    (prev : SchedulesMap) (tid : List Char) (idx : Nat) (x y : Int)
    (entries : List Schedule) (sch : Schedule)
    (he : jsGet prev tid = some entries) (hs : entries.get? idx = some sch)
    (hv : isValidMove labels.length (jsIndexOf labels sch.day + Int.fdiv x w) sch
      (Int.fdiv y h) = true) :
    ∃ entries',
      dragCommit? labels w h prev tid idx x y = some (jsSet prev tid entries') ∧
      handleDragEnd labels w h prev tid idx x y = jsSet prev tid entries' ∧
      entries'.get? idx = some
        { day := (labels.get? (jsIndexOf labels sch.day + Int.fdiv x w).toNat).getD []
          range := sch.range.map fun t => t.map (· + Int.fdiv y h)
          room := sch.room
          lecture := sch.lecture } ∧
      (∀ j, j ≠ idx → entries'.get? j = entries.get? j) ∧
      entries'.length = entries.length ∧
      jsGet (jsSet prev tid entries') tid = some entries' ∧
      (∀ k, k ≠ tid → jsGet (jsSet prev tid entries') k = jsGet prev k) := by
  refine ⟨jsMapIdx
    (fun targetIndex targetSchedule =>
      if targetIndex = idx then
        { targetSchedule with
          day := (labels.get? (jsIndexOf labels sch.day + Int.fdiv x w).toNat).getD []
          range := targetSchedule.range.map fun t =>
            t.map (· + Int.fdiv y h) }
      else targetSchedule)
    0 entries, ?_, ?_, ?_, ?_, ?_, ?_, ?_⟩
  · rw [dragCommit?]
    simp only [he, hs, hv, Bool.not_true, Bool.false_eq_true, if_false]
  · rw [handleDragEnd, dragCommit?]
    simp only [he, hs, hv, Bool.not_true, Bool.false_eq_true, if_false, Option.getD_some]
  · rw [jsMapIdx_get?, hs]
    simp
  · intro j hj
    rw [jsMapIdx_get?]
    simp only [Nat.zero_add]
    cases hgj : entries.get? j with
    | none => rfl
    | some e => simp [hj]
  · rw [jsMapIdx_length]
  · exact jsGet_jsSet_self prev tid _ entries he
  · intro k hk
    exact jsGet_jsSet_ne prev tid _ k hk

/-- Claim C6: a valid relocation commits a mapping in which exactly the
entry at `(tableId, entryIndex)` is replaced — its day becomes
`dayLabels[newDayIndex]`, its range is shifted by the time delta, its other
fields are unchanged — while every other entry of that table and every other
table's entry list equals its previous value. -/
theorem drag_commit_frame (labels : List (List Char)) (w h : Int)
    (prev : SchedulesMap) (tid : List Char) (idx : Nat) (x y : Int)
    (entries : List Schedule) (sch : Schedule)
    (he : jsGet prev tid = some entries) (hs : entries.get? idx = some sch)
    (hv : isValidMove labels.length (jsIndexOf labels sch.day + Int.fdiv x w) sch
      (Int.fdiv y h) = true) :
    ∃ entries',
      dragCommit? labels w h prev tid idx x y = some (jsSet prev tid entries') ∧
      handleDragEnd labels w h prev tid idx x y = jsSet prev tid entries' ∧
      entries'.get? idx = some
        { day := (labels.get? (jsIndexOf labels sch.day + Int.fdiv x w).toNat).getD []
          range := sch.range.map fun t => t.map (· + Int.fdiv y h)
          room := sch.room
          lecture := sch.lecture } ∧
      (∀ j, j ≠ idx → entries'.get? j = entries.get? j) ∧
      entries'.length = entries.length ∧
      jsGet (jsSet prev tid entries') tid = some entries' ∧
      (∀ k, k ≠ tid → jsGet (jsSet prev tid entries') k = jsGet prev k) :=
  dragCommit_sound labels w h prev tid idx x y entries sch he hs hv

/-- Claim C6 witness: a concrete valid move (one day right, two slots down)
of the single entry of `exMap`. -/
theorem drag_commit_frame_witness :
    ∃ entries',
      dragCommit? exLabels 80 30 exMap "t".data 0 80 60 =
        some (jsSet exMap "t".data entries') ∧
      handleDragEnd exLabels 80 30 exMap "t".data 0 80 60 =
        jsSet exMap "t".data entries' ∧
      entries'.get? 0 = some
        { day := (exLabels.get? (jsIndexOf exLabels exEntry.day + Int.fdiv 80 80).toNat).getD []
          range := exEntry.range.map fun t => t.map (· + Int.fdiv 60 30)
          room := exEntry.room
          lecture := exEntry.lecture } ∧
      (∀ j, j ≠ 0 → entries'.get? j = [exEntry].get? j) ∧
      entries'.length = [exEntry].length ∧
      jsGet (jsSet exMap "t".data entries') "t".data = some entries' ∧
      (∀ k, k ≠ "t".data → jsGet (jsSet exMap "t".data entries') k = jsGet exMap k) :=
  drag_commit_frame exLabels 80 30 exMap "t".data 0 80 60 [exEntry] exEntry
    (by decide) (by decide) (by decide)

/-- Claim C9: commit-time validation has no upper bound on slot indices —
for any existing entry with a numeric non-empty range whose day check passes
(and positive cell height), some positive time delta is accepted and the
committed entry's slots all exceed the grid's `numTimeSlots`. -/
theorem drag_no_upper_bound (labels : List (List Char)) (w h : Int)
    (prev : SchedulesMap) (tid : List Char) (idx : Nat) (x : Int)
    (entries : List Schedule) (sch : Schedule) (rs : List Int)
    (he : jsGet prev tid = some entries) (hs : entries.get? idx = some sch)
    (hr : sch.range = rs.map some) (hne : rs ≠ [])
    (hd1 : 0 ≤ jsIndexOf labels sch.day + Int.fdiv x w)
    (hd2 : jsIndexOf labels sch.day + Int.fdiv x w < (labels.length : Int))
    (hh : 0 < h) :
    ∃ y m entries' sch',
      0 < Int.fdiv y h ∧
      dragCommit? labels w h prev tid idx x y = some m ∧
      jsGet m tid = some entries' ∧
      entries'.get? idx = some sch' ∧
      sch'.range ≠ [] ∧
      ∀ t ∈ sch'.range, ∃ n : Int, t = some n ∧ (numTimeSlots : Int) < n := by
  classical
  set S : Nat := (rs.map Int.natAbs).sum with hS
  set td : Int := (numTimeSlots : Int) + 1 + (S : Int) with htd
  have habs : ∀ r ∈ rs, (Int.natAbs r : Int) ≤ (S : Int) := by
    intro r hrm
    have hmem : r.natAbs ∈ rs.map Int.natAbs := List.mem_map_of_mem _ hrm
    exact_mod_cast List.single_le_sum (fun x _ => Nat.zero_le x) _ hmem
  have hbig : ∀ r ∈ rs, (numTimeSlots : Int) < r + td := by
    intro r hrm
    have h1 := habs r hrm
    have h2 := Int.natAbs_eq r
    omega
  have hpos : ∀ r ∈ rs, 0 < r + td := by
    intro r hrm
    have := hbig r hrm
    have : (0 : Int) ≤ (numTimeSlots : Int) := by positivity
    omega
  have hfd : Int.fdiv (td * h) h = td := Int.mul_fdiv_cancel td (by omega)
  have hv : isValidMove labels.length (jsIndexOf labels sch.day + Int.fdiv x w) sch
      (Int.fdiv (td * h) h) = true := by
    rw [hfd]
    exact (isValidMove_iff _ _ _ _ rs hr).mpr ⟨hd1, hd2, hpos⟩
  obtain ⟨entries', hcommit, _hend, hget, _hframe, _hlen, hself, _hothers⟩ :=
    dragCommit_sound labels w h prev tid idx x (td * h) entries sch he hs hv
  refine ⟨td * h, jsSet prev tid entries', entries', _, ?_, hcommit, hself, hget, ?_, ?_⟩
  · rw [hfd]
    have : (0 : Int) ≤ (numTimeSlots : Int) := by positivity
    have : (0 : Int) ≤ (S : Int) := by positivity
    omega
  · rw [hr, hfd]
    simp only [List.map_map, ne_eq, List.map_eq_nil_iff, Function.comp]
    exact hne
  · intro t ht
    rw [hr, hfd] at ht
    simp only [List.map_map, List.mem_map, Function.comp] at ht
    obtain ⟨r, hrm, hrt⟩ := ht
    exact ⟨r + td, by simpa using hrt.symm, hbig r hrm⟩

/-! ## Helper lemmas: splitting -/

theorem isPrefixL_length_le : ∀ p s : List Char, isPrefixL p s = true → p.length ≤ s.length := by
  intro p
  induction p with
  | nil => intro s _; simp
  | cons a p ih =>
    intro s hp
    cases s with
    | nil => simp [isPrefixL] at hp
    | cons b s =>
      simp only [isPrefixL, Bool.and_eq_true] at hp
      have := ih s hp.2
      simp only [List.length_cons]
      omega

theorem isPrefixL_append_self : ∀ p t : List Char, isPrefixL p (p ++ t) = true := by
  intro p
  induction p with
  | nil => intro t; rfl
  | cons a p ih => intro t; simp [isPrefixL, ih]

theorem isPrefixL_of_append_left : ∀ p a b : List Char,
    isPrefixL p (a ++ b) = true → p.length ≤ a.length → isPrefixL p a = true := by
  intro p
  induction p with
  | nil => intro a b _ _; rfl
  | cons c p ih =>
    intro a b hp hl
    cases a with
    | nil => simp at hl
    | cons d a =>
      simp only [List.cons_append, isPrefixL, Bool.and_eq_true] at hp
      simp only [List.length_cons] at hl
      simp only [isPrefixL, Bool.and_eq_true]
      exact ⟨hp.1, ih a b hp.2 (by omega)⟩

theorem isPrefixL_append_right : ∀ p a b : List Char,
    isPrefixL p a = true → isPrefixL p (a ++ b) = true := by
  intro p
  induction p with
  | nil => intro a b _; rfl
  | cons c p ih =>
    intro a b hp
    cases a with
    | nil => simp [isPrefixL] at hp
    | cons d a =>
      simp only [isPrefixL, Bool.and_eq_true] at hp ⊢
      exact ⟨hp.1, ih a b hp.2⟩

theorem jsSplitAux_succ (sep : List Char) (fuel : Nat) (s : List Char) :
    jsSplitAux sep (fuel + 1) s =
      if !sep.isEmpty && isPrefixL sep s then
        [] :: jsSplitAux sep fuel (s.drop sep.length)
      else if s.isEmpty then [[]]
      else
        (s.headD default :: (jsSplitAux sep fuel s.tail).headD []) ::
          (jsSplitAux sep fuel s.tail).tail := by
  simp only [jsSplitAux]

theorem jsSplitAux_fuel_eq (sep : List Char) :
    ∀ f1 f2 s, s.length < f1 → s.length < f2 →
      jsSplitAux sep f1 s = jsSplitAux sep f2 s := by
  intro f1
  induction f1 with
  | zero => intro f2 s h1; omega
  | succ f1 ih =>
    intro f2 s h1 h2
    cases f2 with
    | zero => omega
    | succ f2 =>
      rw [jsSplitAux_succ, jsSplitAux_succ]
      by_cases hc : (!sep.isEmpty && isPrefixL sep s) = true
      · rw [if_pos hc, if_pos hc]
        simp only [Bool.and_eq_true, Bool.not_eq_true', List.isEmpty_eq_false] at hc
        have hsl : 0 < sep.length := List.length_pos.mpr hc.1
        have hle := isPrefixL_length_le sep s hc.2
        have hd : (s.drop sep.length).length = s.length - sep.length := List.length_drop _ _
        rw [ih f2 (s.drop sep.length) (by omega) (by omega)]
      · rw [if_neg hc, if_neg hc]
        by_cases hs : s.isEmpty
        · rw [if_pos hs, if_pos hs]
        · rw [if_neg hs, if_neg hs]
          have hlen : s.tail.length = s.length - 1 := List.length_tail s
          have hs' : s ≠ [] := by simpa using hs
          have hpos : 0 < s.length := List.length_pos.mpr hs'
          rw [ih f2 s.tail (by omega) (by omega)]

theorem jsSplitAux_eq_jsSplit (sep : List Char) (fuel : Nat) (s : List Char)
    (h : s.length < fuel) : jsSplitAux sep fuel s = jsSplit sep s :=
  jsSplitAux_fuel_eq sep fuel (s.length + 1) s h (by omega)

theorem sepFree_tail (sep c g) (h : sepFree sep (c :: g) = true) : sepFree sep g = true := by
  rw [sepFree] at h ⊢
  rw [List.tails_cons, List.all_cons, Bool.and_eq_true] at h
  exact h.2

theorem sepFree_head_not (sep c g) (h : sepFree sep (c :: g) = true) :
    isPrefixL sep ((c :: g) ++ sep) = false := by
  rw [sepFree, List.tails_cons, List.all_cons, Bool.and_eq_true] at h
  have := h.1
  simp only [List.isEmpty_cons, Bool.false_or, Bool.not_eq_true'] at this
  exact this

theorem jsSplit_cons_sep (sep : List Char) (hsep : sep ≠ []) :
    ∀ g rest, sepFree sep g = true →
      jsSplit sep (g ++ sep ++ rest) = g :: jsSplit sep rest := by
  intro g
  induction g with
  | nil =>
    intro rest _
    simp only [List.nil_append]
    rw [jsSplit, jsSplitAux_succ]
    rw [if_pos (by
      simp only [Bool.and_eq_true, Bool.not_eq_true', List.isEmpty_eq_false]
      exact ⟨hsep, isPrefixL_append_self sep rest⟩)]
    rw [List.drop_left]
    have hsl : 0 < sep.length := List.length_pos.mpr hsep
    rw [jsSplitAux_eq_jsSplit sep _ rest (by
      simp only [List.length_append]; omega)]
  | cons c g ih =>
    intro rest hfree
    have hnot : isPrefixL sep ((c :: g) ++ sep ++ rest) = false := by
      by_cases hp : isPrefixL sep ((c :: g) ++ sep ++ rest) = true
      · have : isPrefixL sep ((c :: g) ++ sep) = true := by
          have hassoc : (c :: g) ++ sep ++ rest = ((c :: g) ++ sep) ++ rest := by
            simp
          rw [hassoc] at hp
          exact isPrefixL_of_append_left sep ((c :: g) ++ sep) rest hp
            (by simp only [List.length_append]; omega)
        rw [sepFree_head_not sep c g hfree] at this
        cases this
      · simpa using hp
    rw [jsSplit, jsSplitAux_succ]
    rw [if_neg (by rw [hnot, Bool.and_false]; simp), if_neg (by simp)]
    simp only [List.cons_append, List.headD_cons, List.tail_cons, List.length_cons]
    have hback : jsSplitAux sep ((g ++ sep ++ rest).length + 1) (g ++ sep ++ rest) =
        jsSplit sep (g ++ sep ++ rest) := rfl
    rw [hback, ih rest (sepFree_tail sep c g hfree)]
    rfl

theorem jsSplit_single (sep : List Char) (hsep : sep ≠ []) :
    ∀ g, sepFree sep g = true → jsSplit sep g = [g] := by
  intro g
  induction g with
  | nil =>
    intro _
    rw [jsSplit, jsSplitAux_succ]
    rw [if_neg (by
      cases sep with
      | nil => exact absurd rfl hsep
      | cons a sep' => simp [isPrefixL])]
    simp
  | cons c g ih =>
    intro hfree
    have hnot : isPrefixL sep (c :: g) = false := by
      by_cases hp : isPrefixL sep (c :: g) = true
      · have := isPrefixL_append_right sep (c :: g) sep hp
        rw [sepFree_head_not sep c g hfree] at this
        cases this
      · simpa using hp
    rw [jsSplit, jsSplitAux_succ]
    rw [if_neg (by rw [hnot, Bool.and_false]; simp), if_neg (by simp)]
    simp only [List.headD_cons, List.tail_cons, List.length_cons]
    have hback : jsSplitAux sep (g.length + 1) g = jsSplit sep g := rfl
    rw [hback]
    rw [ih (sepFree_tail sep c g hfree)]
    rfl

theorem jsSplit_joinSep (sep : List Char) (hsep : sep ≠ []) :
    ∀ gs : List (List Char), gs ≠ [] → (∀ g ∈ gs, sepFree sep g = true) →
      jsSplit sep (joinSep sep gs) = gs := by
  intro gs
  induction gs with
  | nil => intro h; exact absurd rfl h
  | cons g gs ih =>
    intro _ hall
    cases gs with
    | nil =>
      rw [joinSep]
      exact jsSplit_single sep hsep g (hall g (by simp))
    | cons g2 gs' =>
      rw [joinSep, jsSplit_cons_sep sep hsep g (joinSep sep (g2 :: gs'))
        (hall g (by simp))]
      rw [ih (List.cons_ne_nil g2 gs') (fun x hx => hall x (by simp [hx]))]
      exact fun h => List.noConfusion h

/-! ## Helper lemmas: character runs and numbers -/

theorem takeWhile_append_stop (p : Char → Bool) :
    ∀ a b : List Char, (∀ c ∈ a, p c = true) →
      (∀ c, b.head? = some c → p c = false) →
      (a ++ b).takeWhile p = a ∧ (a ++ b).dropWhile p = b := by
  intro a
  induction a with
  | nil =>
    intro b _ hb
    cases b with
    | nil => simp
    | cons c b' =>
      have := hb c rfl
      simp [List.takeWhile, List.dropWhile, this]
  | cons x a ih =>
    intro b ha hb
    have hx : p x = true := ha x (by simp)
    have := ih b (fun c hc => ha c (by simp [hc])) hb
    simp [List.takeWhile, List.dropWhile, hx, this.1, this.2]

theorem isDig_not_ws (c : Char) (h : isDig c = true) : isJsWS c = false := by
  simp only [isDig, Bool.and_eq_true, decide_eq_true_eq] at h
  simp only [isJsWS, Bool.or_eq_false_iff, decide_eq_false_iff_not, Bool.and_eq_false_iff]
  omega

theorem isHangul_not_dig (c : Char) (h : isHangul c = true) : isDig c = false := by
  simp only [isHangul, Bool.and_eq_true, decide_eq_true_eq] at h
  simp only [isDig, Bool.and_eq_false_iff, decide_eq_false_iff_not]
  omega

theorem isDig_ne_tilde (c : Char) (h : isDig c = true) : ¬ c = '~' := by
  simp only [isDig, Bool.and_eq_true, decide_eq_true_eq] at h
  intro hc
  rw [hc] at h
  simp at h

theorem dropWhile_eq_self_of_not (p : Char → Bool) (l : List Char)
    (h : ∀ c ∈ l, p c = false) : l.dropWhile p = l := by
  cases l with
  | nil => rfl
  | cons c l' => simp [List.dropWhile, h c (by simp)]

theorem trimWS_of_no_ws (l : List Char) (h : ∀ c ∈ l, isJsWS c = false) :
    trimWS l = l := by
  rw [trimWS, dropWhile_eq_self_of_not _ l h,
    dropWhile_eq_self_of_not _ l.reverse (fun c hc => h c (List.mem_reverse.mp hc)),
    List.reverse_reverse]

theorem jsNumber_digits (ds : List Char) (hne : ds ≠ []) (hd : ∀ c ∈ ds, isDig c = true) :
    jsNumber ds = some (digitsToNat ds : Int) := by
  have ht : trimWS ds = ds := trimWS_of_no_ws ds (fun c hc => isDig_not_ws c (hd c hc))
  cases ds with
  | nil => exact absurd rfl hne
  | cons c ds' =>
    rw [jsNumber]
    simp only [ht]
    have hc := hd c (by simp)
    have hnm : ¬ c = '-' := by
      intro h
      rw [h] at hc
      simp [isDig] at hc
    have hnp : ¬ c = '+' := by
      intro h
      rw [h] at hc
      simp [isDig] at hc
    have hall : (c :: ds').all isDig = true := by
      rw [List.all_eq_true]
      exact hd
    simp only [hnm, hnp, hall, if_false, if_true]

theorem sepFree_tilde_of_digits (l : List Char) (h : ∀ c ∈ l, isDig c = true) :
    sepFree ['~'] l = true := by
  rw [sepFree, List.all_eq_true]
  intro t ht
  cases t with
  | nil => simp
  | cons c t' =>
    obtain ⟨pre, hpre⟩ := (List.mem_tails _ _).mp ht
    have hc : c ∈ l := by
      rw [← hpre]
      simp
    have := isDig_ne_tilde c (h c hc)
    simp only [List.isEmpty_cons, Bool.false_or, Bool.not_eq_true', List.cons_append,
      isPrefixL]
    simp only [isPrefixL, Bool.and_eq_false_iff]
    left
    simpa [eq_comm] using this

/-! ## Helper lemmas: getTimeRange on digit specs -/

theorem getTimeRange_single (ds : List Char) (hne : ds ≠ [])
    (hd : ∀ c ∈ ds, isDig c = true) :
    getTimeRange ds = some [some (digitsToNat ds : Int)] := by
  rw [getTimeRange]
  rw [jsSplit_single ['~'] (by simp) ds (sepFree_tilde_of_digits ds hd)]
  simp only [List.get?_cons_succ, List.get?_nil, List.headD_cons]
  rw [jsNumber_digits ds hne hd]

theorem getTimeRange_pair (ds1 ds2 : List Char) (h1 : ds1 ≠ []) (h2 : ds2 ≠ [])
    (hd1 : ∀ c ∈ ds1, isDig c = true) (hd2 : ∀ c ∈ ds2, isDig c = true)
    (hle : digitsToNat ds1 ≤ digitsToNat ds2) :
    getTimeRange (ds1 ++ '~' :: ds2) =
      some ((List.range (digitsToNat ds2 + 1 - digitsToNat ds1)).map fun k =>
        some ((digitsToNat ds1 : Int) + (k : Int))) := by
  rw [getTimeRange]
  have hsplit : jsSplit ['~'] (ds1 ++ '~' :: ds2) = [ds1, ds2] := by
    have : ds1 ++ '~' :: ds2 = ds1 ++ ['~'] ++ ds2 := by simp
    rw [this, jsSplit_cons_sep ['~'] (by simp) ds1 ds2 (sepFree_tilde_of_digits ds1 hd1),
      jsSplit_single ['~'] (by simp) ds2 (sepFree_tilde_of_digits ds2 hd2)]
  rw [hsplit]
  simp only [List.get?_cons_succ, List.get?_cons_zero, List.headD_cons]
  simp only [jsNumber_digits ds1 h1 hd1, jsNumber_digits ds2 h2 hd2]
  rw [if_neg (by omega)]
  have htn : ((digitsToNat ds2 : Int) - (digitsToNat ds1 : Int) + 1).toNat =
      digitsToNat ds2 + 1 - digitsToNat ds1 := by omega
  rw [htn]

/-- Claim C9 witness: from the single entry of `exMap` (day check passing
with no horizontal movement), some positive snapped time delta commits a
range lying entirely beyond the 24 drawable slots. -/
theorem drag_no_upper_bound_witness :
    ∃ y m entries' sch',
      0 < Int.fdiv y 30 ∧
      dragCommit? exLabels 80 30 exMap "t".data 0 0 y = some m ∧
      jsGet m "t".data = some entries' ∧
      entries'.get? 0 = some sch' ∧
      sch'.range ≠ [] ∧
      ∀ t ∈ sch'.range, ∃ n : Int, t = some n ∧ (numTimeSlots : Int) < n :=
  drag_no_upper_bound exLabels 80 30 exMap "t".data 0 0 [exEntry] exEntry [1, 2]
    (by decide) (by decide) (by decide) (by decide) (by decide) (by decide) (by decide)

/-! ## Claim C1: day/time filter composition -/

/-- With only the day filter `["월"]` and the time filter `[3]` active, the
per-lecture predicate reduces to the conjunction of two independent
existential checks over the parsed groups. -/
theorem lectureFilter_day_time (lec : Lecture) (gs : List STriple)
    (hp : schedulesOf lec = some gs) :
    lectureFilter [] ⟨[], [], [['월']], [some 3], [], none⟩ lec =
      some ((gs.any fun g => g.day = ['월']) &&
        (gs.any fun g => g.range.contains (some 3))) := by
  rw [lectureFilter]
  rw [if_neg (by simp), if_neg (by simp), if_neg (by simp),
    if_neg (by simp [jsTruthyNum]), if_pos (by simp : ([['월']] : List (List Char)) ≠ [])]
  rw [hp, timeFilterPart]
  rw [if_pos (by simp : ([some 3] : List JsNum) ≠ []), hp]
  by_cases hA : ∃ g ∈ gs, g.day = ['월'] <;> by_cases hB : ∃ g ∈ gs, some 3 ∈ g.range <;>
    simp [hA, hB]
  · rw [if_neg (by push_neg; exact hA), if_neg (by push_neg; exact hB)]
    have hA' : (gs.any fun s => decide (s.day = ['월'])) = true := by
      simp only [List.any_eq_true, decide_eq_true_eq]
      exact hA
    have hB' : (gs.any fun g => decide (some 3 ∈ g.range)) = true := by
      simp only [List.any_eq_true, decide_eq_true_eq]
      exact hB
    rw [hA', hB']
    rfl
  · rw [if_neg (by push_neg; exact hA), if_pos (by push_neg at hB; exact hB)]
    have hB' : (gs.any fun g => decide (some 3 ∈ g.range)) = false := by
      simp only [List.any_eq_false, decide_eq_true_eq]
      push_neg at hB
      exact hB
    rw [hB']
    simp
  · rw [if_pos (by push_neg at hA; exact hA)]
    have hA' : (gs.any fun s => decide (s.day = ['월'])) = false := by
      simp only [List.any_eq_false, decide_eq_true_eq]
      push_neg at hA
      exact hA
    rw [hA']
    simp
  · rw [if_pos (by push_neg at hA; exact hA)]
    have hA' : (gs.any fun s => decide (s.day = ['월'])) = false := by
      simp only [List.any_eq_false, decide_eq_true_eq]
      push_neg at hA
      exact hA
    rw [hA']
    simp

/-- Claim C1, counterexample: a lecture whose schedule is
`"월1(A)<p>화3(B)"` is kept by the day=`"월"` AND time=`3` filter although no
single parsed group has day `"월"` with `3` in its range — the two conditions
are tested by independent existentials over the groups. -/
theorem filteredLectures_joint_counterexample :
    filteredLectures [] ⟨[], [], [['월']], [some 3], [], none⟩ [exLecture] =
      some [exLecture] ∧
    parseSchedule exLecture.schedule =
      some [⟨['월'], [some 1], ['A']⟩, ⟨['화'], [some 3], ['B']⟩] ∧
    ∀ g ∈ [(⟨['월'], [some 1], ['A']⟩ : STriple), ⟨['화'], [some 3], ['B']⟩],
      ¬(g.day = ['월'] ∧ some 3 ∈ g.range) := by decide

/-- Claim C1, amended: when every lecture's schedule parses, filtering with
days = `["월"]` and times = `[3]` keeps exactly the lectures whose parsed
schedule contains some group with day `"월"` and some — possibly different —
group whose range contains `3`. -/
theorem filteredLectures_day_time_independent (l : List Lecture)
    (hp : ∀ lec ∈ l, (schedulesOf lec).isSome) :
    filteredLectures [] ⟨[], [], [['월']], [some 3], [], none⟩ l =
      some (l.filter fun lec =>
        ((schedulesOf lec).getD []).any (fun g => g.day = ['월']) &&
        ((schedulesOf lec).getD []).any fun g => g.range.contains (some 3)) := by
  induction l with
  | nil => rfl
  | cons a l ih =>
    have ha := hp a (by simp)
    rcases Option.isSome_iff_exists.mp ha with ⟨gs, hgs⟩
    have hal : ∀ lec ∈ l, (schedulesOf lec).isSome := fun lec hm => hp lec (by simp [hm])
    have htail := ih hal
    rw [filteredLectures] at htail ⊢
    rw [filterOpt, lectureFilter_day_time a gs hgs, htail]
    rw [List.filter_cons]
    simp only [hgs, Option.getD_some]

/-- Claim C1 witness: the filter applied to the concrete one-lecture list. -/
theorem filteredLectures_day_time_independent_witness :
    filteredLectures [] ⟨[], [], [['월']], [some 3], [], none⟩ [exLecture] =
      some ([exLecture].filter fun lec =>
        ((schedulesOf lec).getD []).any (fun g => g.day = ['월']) &&
        ((schedulesOf lec).getD []).any fun g => g.range.contains (some 3)) :=
  filteredLectures_day_time_independent [exLecture] (by decide)

/-! ## Claims C3 and C7: the parser -/

theorem dropWhile_nil_of_all (p : Char → Bool) (l : List Char)
    (h : ∀ c ∈ l, p c = true) : l.dropWhile p = [] := by
  induction l with
  | nil => rfl
  | cons c l ih =>
    rw [List.dropWhile_cons, if_pos (h c (by simp))]
    exact ih fun x hx => h x (by simp [hx])

/-- The per-group computation of `parseSchedule` on a well-formed group. -/
theorem parseGroup_render (g : RawGroup) (hwf : g.wf = true) :
    parseGroup g.render = some g.expected := by
  obtain ⟨d, ds1, ds2, room⟩ := g
  simp only [RawGroup.wf, Bool.and_eq_true] at hwf
  obtain ⟨⟨⟨⟨⟨⟨hH, hB⟩, hC⟩, hD⟩, hE⟩, hF⟩, hG⟩ := hwf
  have h1ne : ds1 ≠ [] := by simpa using hB
  have h1d : ∀ c ∈ ds1, isDig c = true := List.all_eq_true.mp hC
  have hFr : ∀ c ∈ room, (fun c => !isLineTerm c) c = true := by
    intro c hc
    have := List.all_eq_true.mp hF c hc
    simpa using this
  have hroomstop : ∀ c, room.head? = some c → isDig c = false := by
    cases room with
    | nil => intro c hc; cases hc
    | cons r0 rt =>
      intro c hc
      simp only [List.head?_cons, Option.some_inj] at hc
      subst hc
      simpa using hE
  have hday : ∀ rest : List Char, (∀ c, rest.head? = some c → isDig c = true) →
      (d :: rest).takeWhile (fun c => !isDig c) = [d] := by
    intro rest hrest
    cases rest with
    | nil => simp [List.takeWhile_cons, isHangul_not_dig d hH]
    | cons r1 rt =>
      have hr1 : isDig r1 = true := hrest r1 rfl
      simp [List.takeWhile_cons, isHangul_not_dig d hH, hr1]
  cases ds2 with
  | some ds =>
    rw [Bool.and_eq_true, Bool.and_eq_true] at hD
    obtain ⟨⟨hDne', hDd'⟩, hDle'⟩ := hD
    have hDne : ds ≠ [] := by simpa using hDne'
    have hDd : ∀ c ∈ ds, isDig c = true := List.all_eq_true.mp hDd'
    have hDle : digitsToNat ds1 ≤ digitsToNat ds := by simpa using hDle'
    have hrender : RawGroup.render ⟨d, ds1, some ds, room⟩ =
        d :: (ds1 ++ '~' :: (ds ++ room)) := by
      simp [RawGroup.render]
    rw [hrender]
    have hsp1 := takeWhile_append_stop isDig ds1 ('~' :: (ds ++ room)) h1d
      (by
        intro c hc
        simp only [List.head?_cons, Option.some_inj] at hc
        subst hc
        decide)
    have hsp2 := takeWhile_append_stop isDig ds room hDd hroomstop
    have hmatch : regMatchCore (d :: (ds1 ++ '~' :: (ds ++ room))) =
        some (d, ds1 ++ '~' :: ds, room) := by
      simp only [regMatchCore]
      rw [hsp1.1, hsp1.2]
      rw [if_pos (by simp [hH, h1ne])]
      simp only [List.head?_cons, List.tail_cons, hsp2.1, hsp2.2]
      rw [if_pos (by simp [hDne])]
    have hspec : replaceSpec (d :: (ds1 ++ '~' :: (ds ++ room))) = ds1 ++ '~' :: ds := by
      simp only [replaceSpec, hmatch]
      rw [dropWhile_nil_of_all _ room hFr]
      simp
    have hroom2 : replaceRoom (d :: (ds1 ++ '~' :: (ds ++ room))) = room := by
      simp only [replaceRoom, hmatch]
      exact List.takeWhile_append_dropWhile _ _
    have hday' := hday (ds1 ++ '~' :: (ds ++ room)) (by
      intro c hc
      cases ds1 with
      | nil => exact absurd rfl h1ne
      | cons d1 ds1' =>
        simp only [List.cons_append, List.head?_cons, Option.some_inj] at hc
        subst hc
        exact h1d d1 (by simp))
    simp only [parseGroup, hspec, hroom2, hday',
      getTimeRange_pair ds1 ds h1ne hDne h1d hDd hDle, RawGroup.expected]
  | none =>
    have hrender : RawGroup.render ⟨d, ds1, none, room⟩ = d :: (ds1 ++ room) := by
      simp [RawGroup.render]
    rw [hrender]
    have hsp1 := takeWhile_append_stop isDig ds1 room h1d hroomstop
    have hcond : (decide (room.head? = some '~') &&
        decide (room.tail.takeWhile isDig ≠ [])) = false := by
      cases room with
      | nil => simp
      | cons r0 rt =>
        by_cases hr0 : r0 = '~'
        · subst hr0
          cases rt with
          | nil => simp
          | cons c1 rt' =>
            have hc1 : isDig c1 = false := by simpa using hD
            simp [List.tail_cons, List.takeWhile_cons, hc1]
        · simp [List.head?_cons, hr0]
    have hmatch : regMatchCore (d :: (ds1 ++ room)) = some (d, ds1, room) := by
      simp only [regMatchCore]
      rw [hsp1.1, hsp1.2]
      rw [if_pos (by simp [hH, h1ne])]
      rw [if_neg (by rw [hcond]; simp)]
    have hspec : replaceSpec (d :: (ds1 ++ room)) = ds1 := by
      simp only [replaceSpec, hmatch]
      rw [dropWhile_nil_of_all _ room hFr]
      simp
    have hroom2 : replaceRoom (d :: (ds1 ++ room)) = room := by
      simp only [replaceRoom, hmatch]
      exact List.takeWhile_append_dropWhile _ _
    have hday' := hday (ds1 ++ room) (by
      intro c hc
      cases ds1 with
      | nil => exact absurd rfl h1ne
      | cons d1 ds1' =>
        simp only [List.cons_append, List.head?_cons, Option.some_inj] at hc
        subst hc
        exact h1d d1 (by simp))
    simp only [parseGroup, hspec, hroom2, hday',
      getTimeRange_single ds1 h1ne h1d, RawGroup.expected]

theorem parseGroups_render (gs : List RawGroup) (h : ∀ g ∈ gs, g.wf = true) :
    parseGroups (gs.map RawGroup.render) = some (gs.map RawGroup.expected) := by
  induction gs with
  | nil => rfl
  | cons g gs ih =>
    simp only [List.map_cons, parseGroups, parseGroup_render g (h g (by simp)),
      ih fun x hx => h x (by simp [hx])]

/-- Claim C3, counterexample: `parseSchedule` is not total — on the group
`"월5~3"` the time-spec `5~3` makes `Array(3 - 5 + 1) = Array(-1)` throw a
`RangeError` (modelled as `none`). -/
theorem parseSchedule_desc_throws : parseSchedule "월5~3".data = none := by decide

theorem parseGroup_isSome_of_safe (g : List Char) (hsafe0 : safeGroup g = true) :
    (parseGroup g).isSome = true := by
  have hsafe := hsafe0
  simp only [safeGroup] at hsafe
  simp only [parseGroup]
  cases hgt : getTimeRange (replaceSpec g) with
  | some r => rfl
  | none =>
    exfalso
    simp only [getTimeRange] at hgt
    cases hp : (jsSplit ['~'] (replaceSpec g)).get? 1 with
    | none => rw [hp] at hgt; cases hgt
    | some e =>
      rw [hp] at hgt hsafe
      cases hs : jsNumber ((jsSplit ['~'] (replaceSpec g)).headD []) with
      | none => simp only [hs, Bool.false_eq_true] at hsafe
      | some n1 =>
        cases he : jsNumber e with
        | none => simp only [hs, he, Bool.false_eq_true] at hsafe
        | some n2 =>
          simp only [hs, he, decide_eq_true_eq] at hgt hsafe
          rw [if_neg (by omega)] at hgt
          cases hgt

theorem parseGroups_isSome (l : List (List Char))
    (hall : ∀ g ∈ l, (parseGroup g).isSome = true) :
    (parseGroups l).isSome = true := by
  induction l with
  | nil => rfl
  | cons g gs ih =>
    have h1 := hall g (by simp)
    rw [parseGroups]
    cases hg : parseGroup g with
    | none => rw [hg] at h1; cases h1
    | some t =>
      have h2 := ih fun x hx => hall x (by simp [hx])
      cases hgs : parseGroups gs with
      | none => rw [hgs] at h2; cases h2
      | some ts => rfl

/-- Claim C3, amended: `parseSchedule` never throws provided every group is
safe — the `Array` length computed from its extracted time-spec is neither
negative nor `NaN` (no `~`, or numeric bounds `N`, `M` with `M − N + 1 ≥ 0`);
for other groups, such as `"월5~3"`, it throws. -/
theorem parseSchedule_total_of_safe (s : List Char)
    (h : ∀ g ∈ jsSplit pSep s, safeGroup g = true) :
    (parseSchedule s).isSome = true := by
  rw [parseSchedule]
  exact parseGroups_isSome _ fun g hg => parseGroup_isSome_of_safe g (h g hg)

/-- Claim C3 witness: a concrete safe schedule string parses without
throwing. -/
theorem parseSchedule_total_of_safe_witness :
    (parseSchedule "월1~2(101호)".data).isSome = true :=
  parseSchedule_total_of_safe "월1~2(101호)".data (by decide)

/-- Claim C7: on well-formed schedule strings — `<p>`-joined groups, each a
Hangul day character, a digit time-spec `N` or `N~M` with `N ≤ M`, and a room
tail — `parseSchedule` returns one triple per group in order: the day label,
the inclusive slot sequence `[N, ..., M]`, and the room with parentheses
stripped; in particular `"월1~2(101호)<p>화3(102호)"` yields exactly
`{day "월", range [1, 2], room "101호"}` and
`{day "화", range [3], room "102호"}`. -/
theorem parseSchedule_wellformed :
    (∀ gs : List RawGroup, gs ≠ [] → (∀ g ∈ gs, g.wf = true) →
      parseSchedule (joinSep pSep (gs.map RawGroup.render)) =
        some (gs.map RawGroup.expected)) ∧
    parseSchedule "월1~2(101호)<p>화3(102호)".data =
      some [⟨['월'], [some 1, some 2], "101호".data⟩,
        ⟨['화'], [some 3], "102호".data⟩] := by
  constructor
  · intro gs hne hwf
    rw [parseSchedule]
    rw [jsSplit_joinSep pSep (by decide) (gs.map RawGroup.render)
      (by simpa using hne)
      (by
        intro r hr
        rcases List.mem_map.mp hr with ⟨g, hg, hrg⟩
        have := hwf g hg
        simp only [RawGroup.wf, Bool.and_eq_true] at this
        rw [← hrg]
        exact this.2)]
    exact parseGroups_render gs hwf
  · decide

/-- Claim C7 witness: the general statement applied to one concrete
well-formed group. -/
theorem parseSchedule_wellformed_witness :
    parseSchedule (joinSep pSep ([⟨'월', ['1'], some ['2'], "(101호)".data⟩].map
      RawGroup.render)) =
      some ([(⟨'월', ['1'], some ['2'], "(101호)".data⟩ : RawGroup)].map
        RawGroup.expected) :=
  parseSchedule_wellformed.1 [⟨'월', ['1'], some ['2'], "(101호)".data⟩]
    (by decide) (by decide)

end Timetable
